import Mathlib

/-
Verification of the OfflineU course viewer core (offlineu_core.py).

Python strings are modelled as `List Char` (ASCII case mapping), filesystem
paths as lists of path components (`Path`), JSON values as the inductive
`JsonVal`, and the persisted progress mapping as an insertion-ordered
association list (`PyDict`), matching the semantics of a Python dict.
Raising an exception is modelled with `Except`.  The ambient clock value
produced by `datetime.now().isoformat()` is passed in as an explicit
`now` argument.
-/

/-! ## Character level utilities (ASCII model of the Python string methods) -/

/-- The whitespace characters recognised by `str.split()` / `str.strip()` /
the regex class `\s` (ASCII fragment). -/
def pyIsSpace (c : Char) : Bool :=
  c = ' ' || c = '\t' || c = '\n' || c = '\r' || c = '\x0b' || c = '\x0c'

/-- The characters collapsed to a space by the regex sub on runs of `[-_]+`. -/
def isDashChar (c : Char) : Bool := c = '-' || c = '_'

/-- The character class `[\.\-_\s]` of the leading-number regex. -/
def isNumSepChar (c : Char) : Bool := c = '.' || c = '-' || c = '_' || pyIsSpace c

/-- The regex class `\d` (ASCII fragment). -/
def isPyDigit (c : Char) : Bool := c.isDigit

/-- Lower/upper case pairs of the ASCII letters, the fragment of the Unicode
case mapping this development models. -/
def lowerUpperTable : List (Char × Char) :=
  [('a', 'A'), ('b', 'B'), ('c', 'C'), ('d', 'D'), ('e', 'E'), ('f', 'F'),
   ('g', 'G'), ('h', 'H'), ('i', 'I'), ('j', 'J'), ('k', 'K'), ('l', 'L'),
   ('m', 'M'), ('n', 'N'), ('o', 'O'), ('p', 'P'), ('q', 'Q'), ('r', 'R'),
   ('s', 'S'), ('t', 'T'), ('u', 'U'), ('v', 'V'), ('w', 'W'), ('x', 'X'),
   ('y', 'Y'), ('z', 'Z')]

/-- ASCII model of upper-casing a single character. -/
def pyUpperChar (c : Char) : Char :=
  match lowerUpperTable.lookup c with
  | some u => u
  | none => c

/-- ASCII model of lower-casing a single character. -/
def pyLowerChar (c : Char) : Char :=
  match (lowerUpperTable.map (fun p => (p.2, p.1))).lookup c with
  | some l => l
  | none => c

/-- `str.lower()`. -/
def pyLower (s : List Char) : List Char := s.map pyLowerChar

/-- `str.capitalize()`: first character upper-cased, the rest lower-cased. -/
def pyCapitalize : List Char → List Char
  | [] => []
  | c :: r => pyUpperChar c :: r.map pyLowerChar

/-- Python substring containment `pat in s`. -/
def listContains (s pat : List Char) : Bool :=
  if pat.isPrefixOf s then true
  else
    match s with
    | [] => false
    | _ :: rest => listContains rest pat

/-- `str.replace(a, b)` for single characters. -/
def pyReplaceChar (a b : Char) (s : List Char) : List Char :=
  s.map (fun c => if c = a then b else c)

/-- `str.strip()`: drop whitespace from both ends. -/
def pyStrip (s : List Char) : List Char :=
  (((s.dropWhile pyIsSpace).reverse).dropWhile pyIsSpace).reverse

/-! ## Filenames and paths -/

/-- A filesystem path, as its list of components below some root. -/
abbrev FsPath := List (List Char)

/-- Split a file name into `(stem, suffix)` exactly as `pathlib` does: the
suffix starts at the last dot, provided that dot is neither the first nor the
last character of the name. -/
def pySplitExt (name : List Char) : List Char × List Char :=
  match name.reverse.findIdx? (fun c => c = '.') with
  | none => (name, [])
  | some j =>
    let i := name.length - 1 - j
    if 0 < i ∧ i < name.length - 1 then (name.take i, name.drop i) else (name, [])

/-- `Path.stem`. -/
def pyStem (name : List Char) : List Char := (pySplitExt name).1

/-- `Path.suffix`. -/
def pySuffix (name : List Char) : List Char := (pySplitExt name).2

/-- The final component of a path (`Path.name`), `[]` for an empty path. -/
def pathName (p : FsPath) : List Char := p.getLastD []

/-- Join path components with `/`: the string form of a relative path. -/
def joinSlash (p : FsPath) : List Char := List.intercalate ['/'] p

/-- The string form of `file_path.relative_to(course_path)`, backslashes
normalized to forward slashes, for a file below the course root, with paths
kept as component lists. -/
def relToStr (course_path file_path : FsPath) : List Char :=
  pyReplaceChar '\\' '/' (joinSlash (file_path.drop course_path.length))

/-- Strip a single leading `/`, as the reconciler and URL builder do. -/
def stripLeadingSlash (s : List Char) : List Char :=
  match s with
  | '/' :: rest => rest
  | _ => s

/-! ## JSON values and Python dicts -/

/-- A JSON value, the shape of data held in the progress store. -/
inductive JsonVal where
  | null : JsonVal
  | bool (b : Bool) : JsonVal
  | num (n : Int) : JsonVal
  | str (s : List Char) : JsonVal
  | arr (elems : List JsonVal) : JsonVal
  | dict (entries : List (List Char × JsonVal)) : JsonVal

/-- Whether a JSON value is an object (a Python dict, with a `.get` method). -/
def JsonVal.isDict : JsonVal → Bool
  | .dict _ => true
  | _ => false

/-- An insertion-ordered string-keyed mapping: the in-memory form of the
persisted progress JSON object. -/
abbrev PyDict := List (List Char × JsonVal)

/-- Dict lookup `d[k]` / `d.get(k)` as an option. -/
def dictGet (d : PyDict) (k : List Char) : Option JsonVal :=
  match d with
  | [] => none
  | (k', v) :: rest => if k' = k then some v else dictGet rest k

/-- `entries.get(k, dflt)` on the entry list of a JSON object. -/
def entriesGetD (es : List (List Char × JsonVal)) (k : List Char) (dflt : JsonVal) : JsonVal :=
  match es with
  | [] => dflt
  | (k', v) :: rest => if k' = k then v else entriesGetD rest k dflt

/-- Dict assignment `d[k] = v`: replace in place when the key exists
(keeping its position, as a Python dict does), otherwise append. -/
def dictSet (d : PyDict) (k : List Char) (v : JsonVal) : PyDict :=
  match d with
  | [] => [(k, v)]
  | (k', v') :: rest => if k' = k then (k, v) :: rest else (k', v') :: dictSet rest k v

/-- Python truthiness of a JSON value (`if lesson.completed:`). -/
def pyTruthy : JsonVal → Bool
  | .null => false
  | .bool b => b
  | .num n => n ≠ 0
  | .str s => !s.isEmpty
  | .arr l => !l.isEmpty
  | .dict es => !es.isEmpty

/-! ## Data model -/

/-- The `Lesson` dataclass.  The progress fields `completed`,
`progress_seconds` and `last_accessed` hold whatever JSON value the record
supplied, as the dynamically typed source does; freshly scanned lessons hold
`false` / `0` / `None`. -/
structure Lesson where
  title : List Char
  path : FsPath
  lesson_type : List Char
  video_file : Option (List Char) := none
  audio_file : Option (List Char) := none
  subtitle_file : Option (List Char) := none
  text_files : List (List Char) := []
  completed : JsonVal := .bool false
  last_accessed : JsonVal := .null
  progress_seconds : JsonVal := .num 0
  order : Nat := 0

mutual
/-- The `DirectoryNode` dataclass.  `children` is the insertion-ordered
name-keyed dict of child directories. -/
inductive DirectoryNode where
  | mk (name : List Char) (path : FsPath) (type : List Char) (children : NodeList)
       (lessons : List Lesson) (completed : Bool) (last_accessed : Option (List Char))
       (order : Nat) (has_content : Bool) : DirectoryNode
/-- The values of a `children` dict, in insertion order. -/
inductive NodeList where
  | nil : NodeList
  | cons (head : DirectoryNode) (tail : NodeList) : NodeList
end

def DirectoryNode.name : DirectoryNode → List Char | .mk n _ _ _ _ _ _ _ _ => n
def DirectoryNode.path : DirectoryNode → FsPath | .mk _ p _ _ _ _ _ _ _ => p
def DirectoryNode.type : DirectoryNode → List Char | .mk _ _ t _ _ _ _ _ _ => t
def DirectoryNode.children : DirectoryNode → NodeList | .mk _ _ _ ch _ _ _ _ _ => ch
def DirectoryNode.lessons : DirectoryNode → List Lesson | .mk _ _ _ _ ls _ _ _ _ => ls
def DirectoryNode.completed : DirectoryNode → Bool | .mk _ _ _ _ _ co _ _ _ => co
def DirectoryNode.last_accessed : DirectoryNode → Option (List Char) | .mk _ _ _ _ _ _ la _ _ => la
def DirectoryNode.order : DirectoryNode → Nat | .mk _ _ _ _ _ _ _ o _ => o
def DirectoryNode.has_content : DirectoryNode → Bool | .mk _ _ _ _ _ _ _ _ hc => hc

def NodeList.isNil : NodeList → Bool
  | .nil => true
  | .cons _ _ => false

/-! ## Classifier constants -/

def VIDEO_EXTENSIONS : List (List Char) :=
  [".mp4".toList, ".mkv".toList, ".avi".toList, ".mov".toList, ".webm".toList,
   ".m4v".toList, ".flv".toList, ".wmv".toList]

def AUDIO_EXTENSIONS : List (List Char) :=
  [".mp3".toList, ".wav".toList, ".m4a".toList, ".aac".toList, ".ogg".toList, ".flac".toList]

def SUBTITLE_EXTENSIONS : List (List Char) :=
  [".srt".toList, ".vtt".toList, ".ass".toList, ".sub".toList, ".sbv".toList]

def TEXT_EXTENSIONS : List (List Char) :=
  [".txt".toList, ".md".toList, ".html".toList, ".htm".toList, ".pdf".toList,
   ".docx".toList, ".doc".toList, ".rtf".toList]

def QUIZ_INDICATORS : List (List Char) :=
  ["quiz".toList, "exam".toList, "test".toList, "assessment".toList,
   "exercise".toList, "assignment".toList, "homework".toList]

/-- The transient-extension skip set inside `_create_lesson_from_file`,
kept with the exact (mixed-case) spellings of the source. -/
def SKIP_EXTENSIONS : List (List Char) :=
  [".log".toList, ".tmp".toList, ".bak".toList, ".swp".toList,
   ".DS_Store".toList, ".Thumbs.db".toList]

/-! ## Name normalizer: `DynamicCourseParser._clean_lesson_name` -/

/-- The regex sub deleting a leading `\d+[\.\-_\s]*` prefix: when the name
starts with a digit, drop the maximal run of digits and then the maximal run
of `[\.\-_\s]` characters. -/
def stripLeadingNumber (s : List Char) : List Char :=
  match s with
  | [] => []
  | c :: _ => if isPyDigit c then (s.dropWhile isPyDigit).dropWhile isNumSepChar else s

/-- One pass of the regex sub replacing runs of `[-_]+` with single spaces:
`prevDash` records whether the previous character belonged to a dash run
already replaced by a space. -/
def replaceDashRunsAux (prevDash : Bool) : List Char → List Char
  | [] => []
  | c :: rest =>
    if isDashChar c then
      if prevDash then replaceDashRunsAux true rest
      else ' ' :: replaceDashRunsAux true rest
    else c :: replaceDashRunsAux false rest

/-- The regex sub on `[-_]+`: every maximal run of `-`/`_` becomes one space. -/
def replaceDashRuns (s : List Char) : List Char := replaceDashRunsAux false s

/-- Accumulator pass of `str.split()`: split on whitespace runs, dropping
empty pieces.  `acc` holds the current word reversed. -/
def splitWSAux : List Char → List Char → List (List Char)
  | [], acc => if acc.isEmpty then [] else [acc.reverse]
  | c :: rest, acc =>
    if pyIsSpace c then
      if acc.isEmpty then splitWSAux rest []
      else acc.reverse :: splitWSAux rest []
    else splitWSAux rest (c :: acc)

/-- `str.split()` with no separator argument. -/
def splitWS (s : List Char) : List (List Char) := splitWSAux s []

def untitledLesson : List Char := "Untitled Lesson".toList

/-- `DynamicCourseParser._clean_lesson_name`. -/
def _clean_lesson_name (name0 : List Char) : List Char :=
  let name1 := stripLeadingNumber name0
  let name2 := replaceDashRuns name1
  let name3 :=
    List.intercalate [' '] (((splitWS name2).filter (fun w => !w.isEmpty)).map pyCapitalize)
  if (pyStrip name3).isEmpty then untitledLesson else name3

/-! ## Classifier: `DynamicCourseParser._create_lesson_from_file` -/

/-- `DynamicCourseParser._create_lesson_from_file`. -/
def _create_lesson_from_file (file_path course_path : FsPath) : Option Lesson :=
  let ext := pyLower (pySuffix (pathName file_path))
  let filename := pyLower (pathName file_path)
  if SKIP_EXTENSIONS.contains ext then none
  else
    let relative_path := relToStr course_path file_path
    let result :=
      if VIDEO_EXTENSIONS.contains ext then
        some (some relative_path, (none : Option (List Char)), ([] : List (List Char)), "video".toList)
      else if AUDIO_EXTENSIONS.contains ext then
        some (none, some relative_path, [], "audio".toList)
      else if SUBTITLE_EXTENSIONS.contains ext then
        none
      else if TEXT_EXTENSIONS.contains ext then
        some (none, none, [relative_path],
          if QUIZ_INDICATORS.any (fun ind => listContains filename ind)
          then "quiz".toList else "text".toList)
      else none
    match result with
    | none => none
    | some (vf, af, tf, lt) =>
      some { title := _clean_lesson_name (pyStem (pathName file_path))
             path := file_path
             lesson_type := lt
             video_file := vf
             audio_file := af
             subtitle_file := none
             text_files := tf
             order := 0 }

/-! ## Tree builder: `DynamicCourseParser._build_directory_tree` -/

/-- A directory entry as returned by `Path.iterdir()`: either a subdirectory
or a regular file, identified by its name. -/
inductive FSEntry where
  | dir (name : List Char) : FSEntry
  | file (name : List Char) : FSEntry

def FSEntry.name : FSEntry → List Char
  | .dir n => n
  | .file n => n

def FSEntry.isFile : FSEntry → Bool
  | .dir _ => false
  | .file _ => true

/-- A filesystem: what `iterdir()` lists at each path.  A plain function, so
arbitrarily (even infinitely) deep directory structures, such as the unfolding
of a symlink cycle, are expressible. -/
abbrev FS := FsPath → List FSEntry

/-- Python string comparison (lexicographic by code point), non-strict. -/
def charListLE : List Char → List Char → Bool
  | [], _ => true
  | _ :: _, [] => false
  | c :: cs, d :: ds => if c = d then charListLE cs ds else decide (c < d)

/-- The sort key `lambda x: (x.is_file(), x.name.lower())`, compared as a
Python tuple. -/
def itemLE (a b : FSEntry) : Bool :=
  if a.isFile = b.isFile then charListLE (pyLower a.name) (pyLower b.name)
  else (!a.isFile && b.isFile)

/-- Insert into a sorted list, keeping earlier elements first on ties. -/
def insertSorted (le : FSEntry → FSEntry → Bool) (a : FSEntry) : List FSEntry → List FSEntry
  | [] => [a]
  | b :: l => if le a b then a :: b :: l else b :: insertSorted le a l

/-- A stable sort, the model of Python `sorted`. -/
def pySorted (le : FSEntry → FSEntry → Bool) : List FSEntry → List FSEntry
  | [] => []
  | a :: rest => insertSorted le a (pySorted le rest)

/-- Dict assignment `node.children[child.name] = child`: replace the entry
with the same name in place, else append. -/
def childInsert : NodeList → DirectoryNode → NodeList
  | .nil, child => .cons child .nil
  | .cons c rest, child =>
    if c.name = child.name then .cons child rest else .cons c (childInsert rest child)

/-- The node built when the depth cap is exceeded:
`DirectoryNode(current_path.name, str(current_path), "directory")`. -/
def truncatedNode (current_path : FsPath) : DirectoryNode :=
  .mk (pathName current_path) current_path "directory".toList .nil [] false none 0 false

/-- The node a directory level starts from, before its items are processed. -/
def initialNode (course_path current_path : FsPath) (depth : Nat) : DirectoryNode :=
  .mk (if current_path = course_path then "Course Root".toList else pathName current_path)
      current_path "directory".toList .nil [] false none depth false

/-- One item of the scan loop: skip dotted names, recurse into directories and
keep the child only when it has content or children, classify files into
lessons.  `recurse` is the recursive call at `depth + 1`. -/
def buildStep (course_path : FsPath) (current_path : FsPath)
    (recurse : FsPath → DirectoryNode) (node : DirectoryNode) (item : FSEntry) :
    DirectoryNode :=
  if ".".toList.isPrefixOf item.name then node
  else
    match item with
    | .dir nm =>
      let child_node := recurse (current_path ++ [nm])
      if child_node.has_content || !child_node.children.isNil then
        .mk node.name node.path node.type (childInsert node.children child_node)
            node.lessons node.completed node.last_accessed node.order true
      else node
    | .file nm =>
      match _create_lesson_from_file (current_path ++ [nm]) course_path with
      | some lesson =>
        .mk node.name node.path node.type node.children (node.lessons ++ [lesson])
            node.completed node.last_accessed node.order true
      | none => node

/-- Fuel-indexed form of `_build_directory_tree`: `fuel` stands for
`11 - depth`, so `fuel = 0` is exactly the guard `depth > 10` of the source
and each recursive call at `depth + 1` runs on `fuel - 1`. -/
def buildAux (fs : FS) (course_path : FsPath) : Nat → FsPath → Nat → DirectoryNode
  | 0, current_path, _ => truncatedNode current_path
  | fuel + 1, current_path, depth =>
    let items := pySorted itemLE (fs current_path)
    items.foldl
      (buildStep course_path current_path
        (fun p => buildAux fs course_path fuel p (depth + 1)))
      (initialNode course_path current_path depth)

/-- `DynamicCourseParser._build_directory_tree`. -/
def _build_directory_tree (fs : FS) (course_path current_path : FsPath) (depth : Nat) :
    DirectoryNode :=
  buildAux fs course_path (11 - depth) current_path depth

/-- Faithfulness of the fuel encoding: `_build_directory_tree` returns the
truncated node exactly when `depth > 10`, and otherwise scans the sorted
items, recursing at `depth + 1`, as the source does. -/
theorem build_directory_tree_unfold (fs : FS) (course_path current_path : FsPath)
    (depth : Nat) :
    _build_directory_tree fs course_path current_path depth =
      if depth > 10 then truncatedNode current_path
      else
        (pySorted itemLE (fs current_path)).foldl
          (buildStep course_path current_path
            (fun p => _build_directory_tree fs course_path p (depth + 1)))
          (initialNode course_path current_path depth) := by
  unfold _build_directory_tree
  by_cases h : depth > 10
  · have h0 : 11 - depth = 0 := by omega
    simp [h, h0, buildAux]
  · have h1 : 11 - depth = (11 - (depth + 1)) + 1 := by omega
    simp [h, h1, buildAux]

/-! ## Stats: `DynamicCourseParser._calculate_completion_stats` -/

mutual
/-- The counter updates of `count_lessons_recursive`, threading the pair
`(total_lessons, completed_lessons)` through the traversal. -/
def countLessonsRec : DirectoryNode → Nat × Nat → Nat × Nat
  | .mk _ _ _ ch ls _ _ _ _, acc =>
    countLessonsList ch
      (ls.foldl (fun a lesson => (a.1 + 1, if pyTruthy lesson.completed then a.2 + 1 else a.2)) acc)
def countLessonsList : NodeList → Nat × Nat → Nat × Nat
  | .nil, acc => acc
  | .cons c cs, acc => countLessonsList cs (countLessonsRec c acc)
end

/-- Round half to even, the rounding mode of Python `round`. -/
def roundHalfEven (x : ℚ) : ℤ :=
  let n := ⌊x⌋
  let r := x - n
  if r < 1/2 then n
  else if 1/2 < r then n + 1
  else if n % 2 = 0 then n else n + 1

/-- `round(x, 1)` on exact rationals (the model of the Python float). -/
def pyRound1 (x : ℚ) : ℚ := (roundHalfEven (x * 10) : ℚ) / 10

structure CompletionStats where
  total_lessons : Nat
  completed_lessons : Nat
  completion_percentage : ℚ

/-- `DynamicCourseParser._calculate_completion_stats`. -/
def _calculate_completion_stats (node : DirectoryNode) : CompletionStats :=
  let counts := countLessonsRec node (0, 0)
  let completion_percentage : ℚ :=
    if counts.1 > 0 then (counts.2 : ℚ) / (counts.1 : ℚ) * 100 else 0
  { total_lessons := counts.1
    completed_lessons := counts.2
    completion_percentage := pyRound1 completion_percentage }

/-! ## Progress tracker -/

/-- The key of the record written for a lesson and of the top-level
last-accessed entry. -/
def keyCompleted : List Char := "completed".toList
def keyProgressSeconds : List Char := "progress_seconds".toList
def keyLastAccessed : List Char := "last_accessed".toList
def keyLastAccessedPath : List Char := "last_accessed_path".toList

/-- `ProgressTracker.update_lesson_progress`: load-mutate-save on the store,
modelled as a function from the loaded mapping to the saved one.  `now` is the
value of `datetime.now().isoformat()`. -/
def update_lesson_progress (progress : PyDict) (lesson_path : List Char)
    (now : List Char) (completed : Bool := false) (progress_seconds : Int := 0) : PyDict :=
  dictSet
    (dictSet progress lesson_path
      (.dict [(keyCompleted, .bool completed),
              (keyProgressSeconds, .num progress_seconds),
              (keyLastAccessed, .str now)]))
    keyLastAccessedPath (.str lesson_path)

/-- The relative lesson path computed inside `apply_to_node` and
`get_lesson_url`: `os.path.relpath(lesson.path, course.path)` with separators
normalized to `/` and a leading `/` stripped. -/
def lessonRelPath (course_path : FsPath) (lesson : Lesson) : List Char :=
  stripLeadingSlash (pyReplaceChar '\\' '/' (joinSlash (lesson.path.drop course_path.length)))

/-- The primary lookup key of a lesson. -/
def lessonPrimaryKey (course_path : FsPath) (lesson : Lesson) : List Char :=
  lessonRelPath course_path lesson

/-- The secondary (composite) key: the relative path, a slash, and the title
with its spaces replaced by underscores. -/
def lessonSecondaryKey (course_path : FsPath) (lesson : Lesson) : List Char :=
  lessonRelPath course_path lesson ++ '/' :: pyReplaceChar ' ' '_' lesson.title

/-- The Python exception raised by `progress[key].get(...)` when the stored
value is not a dict. -/
inductive PyError where
  | attributeError : PyError

/-- The per-lesson body of `apply_to_node`: try the primary key, then the
composite key; a hit reads the three fields with `.get` defaults, which raises
when the stored value is not an object. -/
def applyProgressToLesson (progress : PyDict) (course_path : FsPath) (lesson : Lesson) :
    Except PyError Lesson :=
  let lesson_path := lessonPrimaryKey course_path lesson
  let lesson_path_with_title := lessonSecondaryKey course_path lesson
  match dictGet progress lesson_path with
  | some (.dict es) =>
    .ok { lesson with
          completed := entriesGetD es keyCompleted (.bool false)
          last_accessed := entriesGetD es keyLastAccessed .null
          progress_seconds := entriesGetD es keyProgressSeconds (.num 0) }
  | some _ => .error .attributeError
  | none =>
    match dictGet progress lesson_path_with_title with
    | some (.dict es) =>
      .ok { lesson with
            completed := entriesGetD es keyCompleted (.bool false)
            last_accessed := entriesGetD es keyLastAccessed .null
            progress_seconds := entriesGetD es keyProgressSeconds (.num 0) }
    | some _ => .error .attributeError
    | none => .ok lesson

/-- `apply_to_node` over the lessons of one node, in order. -/
def applyProgressToLessons (progress : PyDict) (course_path : FsPath) :
    List Lesson → Except PyError (List Lesson)
  | [] => .ok []
  | l :: rest =>
    match applyProgressToLesson progress course_path l with
    | .ok l2 =>
      match applyProgressToLessons progress course_path rest with
      | .ok rest2 => .ok (l2 :: rest2)
      | .error e => .error e
    | .error e => .error e

mutual
/-- `apply_to_node` of `ProgressTracker.apply_progress_to_tree`: lessons of
the node first, then the children recursively; the tree comes back rebuilt
since the model is pure. -/
def applyProgressToNode (progress : PyDict) (course_path : FsPath) :
    DirectoryNode → Except PyError DirectoryNode
  | .mk n p t ch ls co la o hc =>
    match applyProgressToLessons progress course_path ls with
    | .ok ls2 =>
      match applyProgressToChildren progress course_path ch with
      | .ok ch2 => .ok (.mk n p t ch2 ls2 co la o hc)
      | .error e => .error e
    | .error e => .error e
def applyProgressToChildren (progress : PyDict) (course_path : FsPath) :
    NodeList → Except PyError NodeList
  | .nil => .ok .nil
  | .cons c cs =>
    match applyProgressToNode progress course_path c with
    | .ok c2 =>
      match applyProgressToChildren progress course_path cs with
      | .ok cs2 => .ok (.cons c2 cs2)
      | .error e => .error e
    | .error e => .error e
end

/-- `ProgressTracker.apply_progress_to_tree`, restricted to its effect on the
tree (the course-level `last_accessed_path` assignment reads
the last-accessed entry with a plain dict get and cannot fail). -/
def apply_progress_to_tree (progress : PyDict) (course_path : FsPath)
    (root : DirectoryNode) : Except PyError DirectoryNode :=
  applyProgressToNode progress course_path root

/-! ## Lesson URLs and lookup: `get_lesson_url`, `find_lesson_in_tree`, `view_lesson` -/

/-- `get_lesson_url`: the course-relative path with the underscored title
appended. -/
def get_lesson_url (lesson : Lesson) (course_path : FsPath) : List Char :=
  lessonRelPath course_path lesson ++ '/' :: pyReplaceChar ' ' '_' lesson.title

/-- The per-node lesson scan of `find_lesson_in_tree`. -/
def findLessonInLessons (course_path : FsPath) (target_path : List Char) :
    List Lesson → Option Lesson
  | [] => none
  | lesson :: rest =>
    let lesson_url := get_lesson_url lesson course_path
    let lesson_file_path := lessonRelPath course_path lesson
    let lesson_path_with_title := lesson_file_path ++ '/' :: pyReplaceChar ' ' '_' lesson.title
    if lesson_url = target_path || lesson_file_path = target_path ||
        lesson_path_with_title = target_path then some lesson
    else findLessonInLessons course_path target_path rest

mutual
/-- `find_lesson_in_tree`: first matching lesson wins, depth-first. -/
def find_lesson_in_tree (course_path : FsPath) (target_path : List Char) :
    DirectoryNode → Option Lesson
  | .mk _ _ _ ch ls _ _ _ _ =>
    match findLessonInLessons course_path target_path ls with
    | some lesson => some lesson
    | none => findLessonInChildren course_path target_path ch
def findLessonInChildren (course_path : FsPath) (target_path : List Char) :
    NodeList → Option Lesson
  | .nil => none
  | .cons c cs =>
    match find_lesson_in_tree course_path target_path c with
    | some lesson => some lesson
    | none => findLessonInChildren course_path target_path cs
end

/-- The store effect of the `view_lesson` route: when the requested path
resolves to a lesson, the progress store is updated through
`update_lesson_progress(current_course, lesson_path)` with its default
`completed=False, progress_seconds=0`; otherwise the route redirects and the
store is untouched. -/
def view_lesson (root : DirectoryNode) (course_path : FsPath) (lesson_path : List Char)
    (progress : PyDict) (now : List Char) : Option PyDict :=
  match find_lesson_in_tree course_path lesson_path root with
  | none => none
  | some _ => some (update_lesson_progress progress lesson_path now)

/-! ## Tree predicates, traversals and spec-side definitions -/

mutual
/-- All lessons of a subtree, in traversal order. -/
def treeLessons : DirectoryNode → List Lesson
  | .mk _ _ _ ch ls _ _ _ _ => ls ++ treeLessonsList ch
def treeLessonsList : NodeList → List Lesson
  | .nil => []
  | .cons c cs => treeLessons c ++ treeLessonsList cs
end

mutual
/-- Apply a function to every lesson of a tree, keeping the shape. -/
def mapLessonsNode (f : Lesson → Lesson) : DirectoryNode → DirectoryNode
  | .mk n p t ch ls co la o hc => .mk n p t (mapLessonsList f ch) (ls.map f) co la o hc
def mapLessonsList (f : Lesson → Lesson) : NodeList → NodeList
  | .nil => .nil
  | .cons c cs => .cons (mapLessonsNode f c) (mapLessonsList f cs)
end

mutual
/-- Whether a subtree contains at least one lesson. -/
def hasLessonB : DirectoryNode → Bool
  | .mk _ _ _ ch ls _ _ _ _ => !ls.isEmpty || hasLessonList ch
def hasLessonList : NodeList → Bool
  | .nil => false
  | .cons c cs => hasLessonB c || hasLessonList cs
end

mutual
/-- The pruning invariant, recursively at every node: `has_content` holds
exactly when the subtree has a lesson, and every retained child both has a
lesson in its subtree and satisfies the invariant itself. -/
def allPrunedB : DirectoryNode → Bool
  | .mk n p t ch ls co la o hc =>
    (hc == hasLessonB (.mk n p t ch ls co la o hc)) && prunedChildrenB ch
def prunedChildrenB : NodeList → Bool
  | .nil => true
  | .cons c cs => (hasLessonB c && allPrunedB c) && prunedChildrenB cs
end

/-- Plain recursive count of the lessons of a subtree (the `N` of the spec). -/
def specTotalLessons (n : DirectoryNode) : Nat := (treeLessons n).length

/-- Plain recursive count of the lessons of a subtree whose `completed` field
is truthy. -/
def specCompletedLessons (n : DirectoryNode) : Nat :=
  ((treeLessons n).filter (fun l => pyTruthy l.completed)).length

/-- The first value among the candidate keys that is present in the records
mapping. -/
def firstMatch (records : PyDict) : List (List Char) → Option JsonVal
  | [] => none
  | k :: ks =>
    match dictGet records k with
    | some v => some v
    | none => firstMatch records ks

/-- The matching policy exactly as the specification words it: compute the
candidate keys in order, primary then secondary; the first key present in the
records supplies `completed`, `progressSeconds`, `lastAccessed`, each
defaulting to false / 0 / absent when missing from the record; a lesson with
no matching key is left unchanged. -/
def specReconcileLesson (records : PyDict) (course_path : FsPath) (lesson : Lesson) :
    Lesson :=
  match firstMatch records
      [lessonPrimaryKey course_path lesson, lessonSecondaryKey course_path lesson] with
  | some (.dict es) =>
    { lesson with
      completed := entriesGetD es keyCompleted (.bool false)
      progress_seconds := entriesGetD es keyProgressSeconds (.num 0)
      last_accessed := entriesGetD es keyLastAccessed .null }
  | _ => lesson

/-- The record value a given lesson would match, when any. -/
def lessonMatchedValue (records : PyDict) (course_path : FsPath) (lesson : Lesson) :
    Option JsonVal :=
  firstMatch records
    [lessonPrimaryKey course_path lesson, lessonSecondaryKey course_path lesson]

/-- The lookup for a lesson is harmless when its matched value, if any, is an
object. -/
def lessonLookupOk (records : PyDict) (course_path : FsPath) (lesson : Lesson) : Bool :=
  match lessonMatchedValue records course_path lesson with
  | some v => v.isDict
  | none => true

/-! ## Auxiliary definitions used by the statements and proofs -/

/-- Whether a string begins with an ASCII digit. -/
def startsWithDigit : List Char → Bool
  | [] => false
  | c :: _ => isPyDigit c

/-- The running invariant of the item fold at one directory level. -/
def BuildInv (st : DirectoryNode) : Prop :=
  st.has_content = (!st.lessons.isEmpty || !st.children.isNil) ∧
  prunedChildrenB st.children = true

/-- A filesystem in which every directory contains exactly one subdirectory
named `d`: the unfolding of a symlink cycle, arbitrarily deep. -/
def chainFS : FS := fun _ => [.dir "d".toList]

/-- Concrete course fixtures for the witnesses. -/
def cpW : FsPath := ["course".toList]

def lessonW : Lesson :=
  { title := "B".toList
    path := ["course".toList, "b.mp4".toList]
    lesson_type := "video".toList
    video_file := some "b.mp4".toList }

def treeW : DirectoryNode :=
  .mk "Course Root".toList cpW "directory".toList .nil [lessonW] false none 0 true

def progressW : PyDict :=
  [("b.mp4".toList, .dict [(keyCompleted, .bool true), (keyProgressSeconds, .num 120)])]

/-- A records mapping with a malformed (non-object) value under a key that
matches the fixture lesson. -/
def badRecordsW : PyDict := [("b.mp4".toList, .str "oops".toList)]

/-- A records mapping with an extra unmatched key and a matched record missing
every expected field. -/
def messyRecordsW : PyDict :=
  [("unmatched/key.mp4".toList, .dict []),
   ("b.mp4".toList, .dict [("bogus".toList, .num 7)])]

/-! ## Lemmas about the character table -/

theorem lookup_mem {α β : Type} [BEq α] [LawfulBEq α] {l : List (α × β)} {a : α} {v : β}
    (h : List.lookup a l = some v) : (a, v) ∈ l := by
  induction l with
  | nil => simp [List.lookup] at h
  | cons p rest ih =>
    obtain ⟨k, w⟩ := p
    rw [List.lookup] at h
    cases hk : (a == k) with
    | true =>
      rw [hk] at h
      simp only [Option.some.injEq] at h
      have ha : a = k := eq_of_beq hk
      subst ha; subst h
      exact List.Mem.head _
    | false =>
      rw [hk] at h
      exact List.mem_cons_of_mem _ (ih h)

theorem pyUpperChar_eq (c : Char) :
    pyUpperChar c = c ∨ (c, pyUpperChar c) ∈ lowerUpperTable := by
  unfold pyUpperChar
  cases h : List.lookup c lowerUpperTable with
  | none => exact Or.inl rfl
  | some u => exact Or.inr (lookup_mem h)

theorem pyLowerChar_eq (c : Char) :
    pyLowerChar c = c ∨ (c, pyLowerChar c) ∈ lowerUpperTable.map (fun p => (p.2, p.1)) := by
  unfold pyLowerChar
  cases h : List.lookup c (lowerUpperTable.map (fun p => (p.2, p.1))) with
  | none => exact Or.inl rfl
  | some u => exact Or.inr (lookup_mem h)

theorem pyUpperChar_pyUpperChar (c : Char) : pyUpperChar (pyUpperChar c) = pyUpperChar c := by
  rcases pyUpperChar_eq c with h | h
  · rw [h, h]
  · exact (by decide : ∀ p ∈ lowerUpperTable, pyUpperChar p.2 = p.2) _ h

theorem pyLowerChar_pyLowerChar (c : Char) : pyLowerChar (pyLowerChar c) = pyLowerChar c := by
  rcases pyLowerChar_eq c with h | h
  · rw [h, h]
  · exact (by decide :
      ∀ p ∈ lowerUpperTable.map (fun q => (q.2, q.1)), pyLowerChar p.2 = p.2) _ h

theorem pyIsSpace_pyUpperChar (c : Char) : pyIsSpace (pyUpperChar c) = pyIsSpace c := by
  rcases pyUpperChar_eq c with h | h
  · rw [h]
  · exact (by decide : ∀ p ∈ lowerUpperTable, pyIsSpace p.2 = pyIsSpace p.1) _ h

theorem pyIsSpace_pyLowerChar (c : Char) : pyIsSpace (pyLowerChar c) = pyIsSpace c := by
  rcases pyLowerChar_eq c with h | h
  · rw [h]
  · exact (by decide :
      ∀ p ∈ lowerUpperTable.map (fun q => (q.2, q.1)), pyIsSpace p.2 = pyIsSpace p.1) _ h

theorem isDashChar_pyUpperChar (c : Char) : isDashChar (pyUpperChar c) = isDashChar c := by
  rcases pyUpperChar_eq c with h | h
  · rw [h]
  · exact (by decide : ∀ p ∈ lowerUpperTable, isDashChar p.2 = isDashChar p.1) _ h

theorem isDashChar_pyLowerChar (c : Char) : isDashChar (pyLowerChar c) = isDashChar c := by
  rcases pyLowerChar_eq c with h | h
  · rw [h]
  · exact (by decide :
      ∀ p ∈ lowerUpperTable.map (fun q => (q.2, q.1)), isDashChar p.2 = isDashChar p.1) _ h

/-! ## Lemmas about `List.intercalate` -/

theorem intercalate_nil_list (sep : List Char) : List.intercalate sep ([] : List (List Char)) = [] := rfl

theorem intercalate_single (sep : List Char) (w : List Char) :
    List.intercalate sep [w] = w := by
  simp [List.intercalate]

theorem intercalate_cons₂ (sep a b : List Char) (l : List (List Char)) :
    List.intercalate sep (a :: b :: l) = a ++ sep ++ List.intercalate sep (b :: l) := by
  simp [List.intercalate, List.intersperse_cons_cons]

theorem mem_intercalate_single_sep {x c : Char} {ws : List (List Char)}
    (h : c ∈ List.intercalate [x] ws) : c = x ∨ ∃ w ∈ ws, c ∈ w := by
  induction ws with
  | nil => simp [intercalate_nil_list] at h
  | cons a l ih =>
    cases l with
    | nil =>
      rw [intercalate_single] at h
      exact Or.inr ⟨a, List.mem_cons_self a [], h⟩
    | cons b l2 =>
      rw [intercalate_cons₂] at h
      rcases List.mem_append.mp h with h1 | h2
      · rcases List.mem_append.mp h1 with ha | hx
        · exact Or.inr ⟨a, List.mem_cons_self _ _, ha⟩
        · exact Or.inl (List.mem_singleton.mp hx)
      · rcases ih h2 with hx | ⟨w, hw, hc⟩
        · exact Or.inl hx
        · exact Or.inr ⟨w, List.mem_cons_of_mem _ hw, hc⟩

/-! ## Lemmas about `splitWS` -/

theorem splitWSAux_token_sound : ∀ (l acc : List Char),
    (∀ c ∈ acc, pyIsSpace c = false) →
    ∀ t ∈ splitWSAux l acc, t ≠ [] ∧ ∀ c ∈ t, pyIsSpace c = false := by
  intro l
  induction l with
  | nil =>
    intro acc hacc t ht
    rw [splitWSAux] at ht
    by_cases h : acc.isEmpty
    · simp [h] at ht
    · simp [h] at ht
      subst ht
      refine ⟨by simpa using (List.isEmpty_eq_false.mp (by simpa using h)), ?_⟩
      intro c hc
      exact hacc c (List.mem_reverse.mp hc)
  | cons c rest ih =>
    intro acc hacc t ht
    rw [splitWSAux] at ht
    by_cases hsp : pyIsSpace c
    · rw [if_pos hsp] at ht
      by_cases h : acc.isEmpty
      · rw [if_pos h] at ht
        exact ih [] (by intro d hd; simp at hd) t ht
      · rw [if_neg h] at ht
        rcases List.mem_cons.mp ht with h1 | h2
        · subst h1
          refine ⟨by simpa using (List.isEmpty_eq_false.mp (by simpa using h)), ?_⟩
          intro d hd
          exact hacc d (List.mem_reverse.mp hd)
        · exact ih [] (by intro d hd; simp at hd) t h2
    · rw [if_neg hsp] at ht
      refine ih (c :: acc) ?_ t ht
      intro d hd
      rcases List.mem_cons.mp hd with h1 | h2
      · subst h1; simpa using hsp
      · exact hacc d h2

theorem splitWSAux_chars : ∀ (l acc : List Char), ∀ t ∈ splitWSAux l acc,
    ∀ c ∈ t, c ∈ l ∨ c ∈ acc := by
  intro l
  induction l with
  | nil =>
    intro acc t ht c hc
    rw [splitWSAux] at ht
    by_cases h : acc.isEmpty
    · simp [h] at ht
    · simp [h] at ht
      subst ht
      exact Or.inr (List.mem_reverse.mp hc)
  | cons a rest ih =>
    intro acc t ht c hc
    rw [splitWSAux] at ht
    by_cases hsp : pyIsSpace a
    · rw [if_pos hsp] at ht
      by_cases h : acc.isEmpty
      · rw [if_pos h] at ht
        rcases ih [] t ht c hc with h1 | h2
        · exact Or.inl (List.mem_cons_of_mem _ h1)
        · simp at h2
      · rw [if_neg h] at ht
        rcases List.mem_cons.mp ht with h1 | h2
        · subst h1
          exact Or.inr (List.mem_reverse.mp hc)
        · rcases ih [] t h2 c hc with h1 | h1
          · exact Or.inl (List.mem_cons_of_mem _ h1)
          · simp at h1
    · rw [if_neg hsp] at ht
      rcases ih (a :: acc) t ht c hc with h1 | h2
      · exact Or.inl (List.mem_cons_of_mem _ h1)
      · rcases List.mem_cons.mp h2 with h3 | h3
        · subst h3; exact Or.inl (List.mem_cons_self _ _)
        · exact Or.inr h3

theorem splitWSAux_word : ∀ (w l acc : List Char),
    (∀ c ∈ w, pyIsSpace c = false) →
    splitWSAux (w ++ l) acc = splitWSAux l (w.reverse ++ acc) := by
  intro w
  induction w with
  | nil => intro l acc _; simp
  | cons c w2 ih =>
    intro l acc hw
    have hc : pyIsSpace c = false := hw c (List.mem_cons_self _ _)
    rw [List.cons_append, splitWSAux, if_neg (by simp [hc])]
    rw [ih l (c :: acc) (fun d hd => hw d (List.mem_cons_of_mem _ hd))]
    congr 1
    simp

theorem splitWS_intercalate : ∀ (ws : List (List Char)),
    (∀ w ∈ ws, w ≠ [] ∧ ∀ c ∈ w, pyIsSpace c = false) →
    splitWS (List.intercalate [' '] ws) = ws := by
  intro ws
  induction ws with
  | nil => intro _; rfl
  | cons a l ih =>
    intro h
    obtain ⟨ha, hac⟩ := h a (List.mem_cons_self _ _)
    cases l with
    | nil =>
      rw [intercalate_single]
      unfold splitWS
      rw [show a = a ++ ([] : List Char) by simp, splitWSAux_word a [] [] hac]
      rw [splitWSAux]
      rw [if_neg (by simp; exact ha)]
      simp
    | cons b l2 =>
      rw [intercalate_cons₂]
      unfold splitWS
      rw [List.append_assoc, splitWSAux_word a _ [] hac]
      rw [List.singleton_append, splitWSAux, if_pos (by decide)]
      rw [if_neg (by simp; exact ha)]
      have := ih (fun w hw => h w (List.mem_cons_of_mem _ hw))
      unfold splitWS at this
      rw [this]
      simp

/-! ## Lemmas about `replaceDashRuns` -/

theorem replaceDashRunsAux_eq_self : ∀ (l : List Char) (prev : Bool),
    (∀ c ∈ l, isDashChar c = false) → replaceDashRunsAux prev l = l := by
  intro l
  induction l with
  | nil => intro prev _; rfl
  | cons c rest ih =>
    intro prev h
    rw [replaceDashRunsAux, if_neg (by simp [h c (List.mem_cons_self _ _)])]
    rw [ih false (fun d hd => h d (List.mem_cons_of_mem _ hd))]

theorem mem_replaceDashRunsAux : ∀ (l : List Char) (prev : Bool),
    ∀ c ∈ replaceDashRunsAux prev l, isDashChar c = false := by
  intro l
  induction l with
  | nil => intro prev c hc; rw [replaceDashRunsAux] at hc; simp at hc
  | cons a rest ih =>
    intro prev c hc
    rw [replaceDashRunsAux] at hc
    by_cases hd : isDashChar a
    · rw [if_pos hd] at hc
      by_cases hp : prev
      · rw [if_pos hp] at hc
        exact ih true c hc
      · rw [if_neg hp] at hc
        rcases List.mem_cons.mp hc with h1 | h1
        · subst h1; decide
        · exact ih true c h1
    · rw [if_neg hd] at hc
      rcases List.mem_cons.mp hc with h1 | h1
      · subst h1; simpa using hd
      · exact ih false c h1

/-! ## Lemmas about `stripLeadingNumber` and `pyCapitalize` -/

theorem stripLeadingNumber_eq_self {l : List Char} (h : startsWithDigit l = false) :
    stripLeadingNumber l = l := by
  cases l with
  | nil => rfl
  | cons c rest =>
    rw [startsWithDigit] at h
    rw [stripLeadingNumber, if_neg (by simp [h])]

theorem pyCapitalize_ne_nil {v : List Char} (h : v ≠ []) : pyCapitalize v ≠ [] := by
  cases v with
  | nil => exact absurd rfl h
  | cons c r => simp [pyCapitalize]

theorem mem_pyCapitalize {c : Char} {v : List Char} (h : c ∈ pyCapitalize v) :
    ∃ d ∈ v, c = pyUpperChar d ∨ c = pyLowerChar d := by
  cases v with
  | nil => simp [pyCapitalize] at h
  | cons a r =>
    rw [pyCapitalize] at h
    rcases List.mem_cons.mp h with h1 | h1
    · exact ⟨a, List.mem_cons_self _ _, Or.inl h1⟩
    · obtain ⟨d, hd, hcd⟩ := List.mem_map.mp h1
      exact ⟨d, List.mem_cons_of_mem _ hd, Or.inr hcd.symm⟩

theorem pyCapitalize_pyCapitalize (v : List Char) :
    pyCapitalize (pyCapitalize v) = pyCapitalize v := by
  cases v with
  | nil => rfl
  | cons c r =>
    rw [pyCapitalize, pyCapitalize, pyUpperChar_pyUpperChar, List.map_map]
    congr 1
    apply List.map_congr_left
    intro a _
    exact pyLowerChar_pyLowerChar a

/-- Shape of every `_clean_lesson_name` result: either the untitled fallback,
or a space-join of nonempty, whitespace-free, dash-free, already-capitalized
words whose join survives `strip`. -/
theorem clean_lesson_name_form (x : List Char) :
    _clean_lesson_name x = untitledLesson ∨
    ∃ ws : List (List Char),
      (∀ w ∈ ws, w ≠ [] ∧ (∀ c ∈ w, pyIsSpace c = false ∧ isDashChar c = false) ∧
        pyCapitalize w = w) ∧
      _clean_lesson_name x = List.intercalate [' '] ws ∧
      (pyStrip (List.intercalate [' '] ws)).isEmpty = false := by
  have hws : ∀ w ∈ ((splitWS (replaceDashRuns (stripLeadingNumber x))).filter
      (fun w => !w.isEmpty)).map pyCapitalize,
      w ≠ [] ∧ (∀ c ∈ w, pyIsSpace c = false ∧ isDashChar c = false) ∧
        pyCapitalize w = w := by
    intro w hw
    obtain ⟨v, hv, hvw⟩ := List.mem_map.mp hw
    obtain ⟨hv1, hv2⟩ := List.mem_filter.mp hv
    have hvne : v ≠ [] := by simpa using hv2
    simp only [splitWS] at hv1
    subst hvw
    refine ⟨pyCapitalize_ne_nil hvne, ?_, pyCapitalize_pyCapitalize v⟩
    intro c hc
    obtain ⟨d, hd, hcd⟩ := mem_pyCapitalize hc
    have hdws : pyIsSpace d = false :=
      (splitWSAux_token_sound _ [] (by simp) v hv1).2 d hd
    have hdmem : d ∈ replaceDashRunsAux false (stripLeadingNumber x) := by
      rcases splitWSAux_chars _ [] v hv1 d hd with h1 | h1
      · simpa [replaceDashRuns] using h1
      · simp at h1
    have hdd : isDashChar d = false := mem_replaceDashRunsAux _ false d hdmem
    rcases hcd with h1 | h1
    · subst h1
      exact ⟨by rw [pyIsSpace_pyUpperChar]; exact hdws,
             by rw [isDashChar_pyUpperChar]; exact hdd⟩
    · subst h1
      exact ⟨by rw [pyIsSpace_pyLowerChar]; exact hdws,
             by rw [isDashChar_pyLowerChar]; exact hdd⟩
  simp only [_clean_lesson_name]
  by_cases h : (pyStrip (List.intercalate [' ']
      (((splitWS (replaceDashRuns (stripLeadingNumber x))).filter
        (fun w => !w.isEmpty)).map pyCapitalize))).isEmpty
  · rw [if_pos h]
    exact Or.inl rfl
  · rw [if_neg h]
    exact Or.inr ⟨_, hws, rfl, by simpa using h⟩

theorem clean_lesson_name_ne_nil (x : List Char) : _clean_lesson_name x ≠ [] := by
  rcases clean_lesson_name_form x with h | ⟨ws, _, hx, hstrip⟩
  · rw [h]; decide
  · rw [hx]
    intro heq
    rw [heq] at hstrip
    simp [pyStrip] at hstrip

theorem clean_lesson_name_idem_of_not_digit (x : List Char)
    (h : startsWithDigit (_clean_lesson_name x) = false) :
    _clean_lesson_name (_clean_lesson_name x) = _clean_lesson_name x := by
  rcases clean_lesson_name_form x with hx | ⟨ws, hws, hx, hstrip⟩
  · rw [hx]; decide
  · rw [hx] at h ⊢
    simp only [_clean_lesson_name]
    rw [stripLeadingNumber_eq_self h]
    have hdash : ∀ c ∈ List.intercalate [' '] ws, isDashChar c = false := by
      intro c hc
      rcases mem_intercalate_single_sep hc with h1 | ⟨w, hw, hcw⟩
      · subst h1; decide
      · exact ((hws w hw).2.1 c hcw).2
    rw [show replaceDashRuns (List.intercalate [' '] ws) = List.intercalate [' '] ws from
      replaceDashRunsAux_eq_self _ false hdash]
    rw [show splitWS (List.intercalate [' '] ws) = ws from
      splitWS_intercalate ws
        (fun w hw => ⟨(hws w hw).1, fun c hc => ((hws w hw).2.1 c hc).1⟩)]
    rw [show ws.filter (fun w => !w.isEmpty) = ws from
      List.filter_eq_self.mpr (fun w hw => by simpa using (hws w hw).1)]
    rw [show ws.map pyCapitalize = ws by
      rw [List.map_congr_left (fun w hw => (hws w hw).2.2)]
      exact List.map_id ws]
    rw [if_neg (by simp [hstrip])]

/-! ## Dict lemmas -/

theorem dictGet_dictSet_same : ∀ (d : PyDict) (k : List Char) (v : JsonVal),
    dictGet (dictSet d k v) k = some v := by
  intro d k v
  induction d with
  | nil => simp [dictSet, dictGet]
  | cons p rest ih =>
    obtain ⟨k', v'⟩ := p
    by_cases h : k' = k
    · subst h
      simp [dictSet, dictGet]
    · rw [dictSet, if_neg h, dictGet, if_neg h]
      exact ih

theorem dictGet_dictSet_other : ∀ (d : PyDict) (k q : List Char) (v : JsonVal), q ≠ k →
    dictGet (dictSet d k v) q = dictGet d q := by
  intro d k q v hqk
  induction d with
  | nil => simp [dictSet, dictGet, Ne.symm hqk]
  | cons p rest ih =>
    obtain ⟨k', v'⟩ := p
    by_cases h : k' = k
    · subst h
      rw [dictSet, if_pos rfl, dictGet, dictGet, if_neg (fun h => hqk h.symm),
        if_neg (fun h => hqk h.symm)]
    · rw [dictSet, if_neg h, dictGet, dictGet]
      by_cases h2 : k' = q
      · rw [if_pos h2, if_pos h2]
      · rw [if_neg h2, if_neg h2]
        exact ih

theorem dictGet_mem : ∀ {d : PyDict} {k : List Char} {v : JsonVal},
    dictGet d k = some v → (k, v) ∈ d := by
  intro d
  induction d with
  | nil => intro k v h; simp [dictGet] at h
  | cons p rest ih =>
    intro k v h
    obtain ⟨k', v'⟩ := p
    rw [dictGet] at h
    by_cases hk : k' = k
    · rw [if_pos hk] at h
      subst hk
      rw [Option.some.injEq] at h
      subst h
      exact List.Mem.head _
    · rw [if_neg hk] at h
      exact List.mem_cons_of_mem _ (ih h)

theorem firstMatch_mem : ∀ (records : PyDict) (ks : List (List Char)) (v : JsonVal),
    firstMatch records ks = some v → ∃ k ∈ ks, dictGet records k = some v := by
  intro records ks
  induction ks with
  | nil => intro v h; simp [firstMatch] at h
  | cons k rest ih =>
    intro v h
    rw [firstMatch] at h
    cases h1 : dictGet records k with
    | some w =>
      rw [h1] at h
      simp at h
      subst h
      exact ⟨k, List.mem_cons_self _ _, h1⟩
    | none =>
      rw [h1] at h
      obtain ⟨k2, hk2, hv⟩ := ih v h
      exact ⟨k2, List.mem_cons_of_mem _ hk2, hv⟩

/-! ## Refinement of `apply_progress_to_tree` to the matching policy -/

theorem applyProgressToLesson_ok (progress : PyDict) (course_path : FsPath)
    (lesson : Lesson) (h : lessonLookupOk progress course_path lesson = true) :
    applyProgressToLesson progress course_path lesson =
      .ok (specReconcileLesson progress course_path lesson) := by
  unfold lessonLookupOk lessonMatchedValue at h
  unfold applyProgressToLesson specReconcileLesson
  cases h1 : dictGet progress (lessonPrimaryKey course_path lesson) with
  | some v =>
    simp only [firstMatch, h1] at h ⊢
    cases v with
    | dict es => rfl
    | null => simp [JsonVal.isDict] at h
    | bool b => simp [JsonVal.isDict] at h
    | num n => simp [JsonVal.isDict] at h
    | str s => simp [JsonVal.isDict] at h
    | arr l => simp [JsonVal.isDict] at h
  | none =>
    simp only [firstMatch, h1] at h ⊢
    cases h2 : dictGet progress (lessonSecondaryKey course_path lesson) with
    | some v =>
      simp only [firstMatch, h2] at h ⊢
      cases v with
      | dict es => rfl
      | null => simp [JsonVal.isDict] at h
      | bool b => simp [JsonVal.isDict] at h
      | num n => simp [JsonVal.isDict] at h
      | str s => simp [JsonVal.isDict] at h
      | arr l => simp [JsonVal.isDict] at h
    | none =>
      simp only [firstMatch, h2] at h ⊢

theorem applyProgressToLessons_ok (progress : PyDict) (course_path : FsPath) :
    ∀ ls : List Lesson, (∀ l ∈ ls, lessonLookupOk progress course_path l = true) →
    applyProgressToLessons progress course_path ls =
      .ok (ls.map (specReconcileLesson progress course_path)) := by
  intro ls
  induction ls with
  | nil => intro _; rfl
  | cons l rest ih =>
    intro h
    have h1 := applyProgressToLesson_ok progress course_path l (h l (List.mem_cons_self _ _))
    have h2 := ih (fun a ha => h a (List.mem_cons_of_mem _ ha))
    rw [applyProgressToLessons, h1, h2, List.map_cons]

mutual
theorem applyProgressToNode_ok (progress : PyDict) (course_path : FsPath) :
    ∀ n : DirectoryNode, (∀ l ∈ treeLessons n, lessonLookupOk progress course_path l = true) →
    applyProgressToNode progress course_path n =
      .ok (mapLessonsNode (specReconcileLesson progress course_path) n)
  | .mk nm p t ch ls co la o hc, h => by
    rw [applyProgressToNode,
      applyProgressToLessons_ok progress course_path ls
        (fun l hl => h l (by rw [treeLessons]; exact List.mem_append_left _ hl)),
      applyProgressToChildren_ok progress course_path ch
        (fun l hl => h l (by rw [treeLessons]; exact List.mem_append_right _ hl)),
      mapLessonsNode]
theorem applyProgressToChildren_ok (progress : PyDict) (course_path : FsPath) :
    ∀ ns : NodeList, (∀ l ∈ treeLessonsList ns, lessonLookupOk progress course_path l = true) →
    applyProgressToChildren progress course_path ns =
      .ok (mapLessonsList (specReconcileLesson progress course_path) ns)
  | .nil, _ => rfl
  | .cons c cs, h => by
    rw [applyProgressToChildren,
      applyProgressToNode_ok progress course_path c
        (fun l hl => h l (by rw [treeLessonsList]; exact List.mem_append_left _ hl)),
      applyProgressToChildren_ok progress course_path cs
        (fun l hl => h l (by rw [treeLessonsList]; exact List.mem_append_right _ hl)),
      mapLessonsList]
end

theorem lessonLookupOk_of_all_dict (progress : PyDict) (course_path : FsPath)
    (h : ∀ kv ∈ progress, kv.2.isDict = true) (l : Lesson) :
    lessonLookupOk progress course_path l = true := by
  unfold lessonLookupOk lessonMatchedValue
  cases h1 : firstMatch progress
      [lessonPrimaryKey course_path l, lessonSecondaryKey course_path l] with
  | none => rfl
  | some v =>
    obtain ⟨k, _, hk⟩ := firstMatch_mem progress _ v h1
    exact h (k, v) (dictGet_mem hk)

mutual
theorem treeLessons_mapLessonsNode (f : Lesson → Lesson) :
    ∀ n : DirectoryNode, treeLessons (mapLessonsNode f n) = (treeLessons n).map f
  | .mk nm p t ch ls co la o hc => by
    rw [mapLessonsNode, treeLessons, treeLessons, treeLessonsList_mapLessonsList f ch,
      List.map_append]
theorem treeLessonsList_mapLessonsList (f : Lesson → Lesson) :
    ∀ ns : NodeList, treeLessonsList (mapLessonsList f ns) = (treeLessonsList ns).map f
  | .nil => rfl
  | .cons c cs => by
    rw [mapLessonsList, treeLessonsList, treeLessonsList,
      treeLessons_mapLessonsNode f c, treeLessonsList_mapLessonsList f cs, List.map_append]
end

/-- Reconciliation never touches the identity fields of a lesson. -/
theorem specReconcileLesson_path (records : PyDict) (course_path : FsPath) (l : Lesson) :
    (specReconcileLesson records course_path l).path = l.path ∧
    (specReconcileLesson records course_path l).title = l.title := by
  unfold specReconcileLesson
  cases h : firstMatch records
      [lessonPrimaryKey course_path l, lessonSecondaryKey course_path l] with
  | none => exact ⟨rfl, rfl⟩
  | some v => cases v <;> exact ⟨rfl, rfl⟩

/-! ## The pruning invariant of the tree builder -/

theorem foldl_preserve {α β : Type} (P : β → Prop) (f : β → α → β)
    (hstep : ∀ st a, P st → P (f st a)) :
    ∀ (l : List α) (st : β), P st → P (l.foldl f st) := by
  intro l
  induction l with
  | nil => intro st h; exact h
  | cons a rest ih => intro st h; exact ih (f st a) (hstep st a h)

theorem hasLessonList_of_pruned : ∀ ns : NodeList, prunedChildrenB ns = true →
    hasLessonList ns = !ns.isNil := by
  intro ns h
  cases ns with
  | nil => rfl
  | cons c cs =>
    rw [prunedChildrenB] at h
    simp only [Bool.and_eq_true] at h
    rw [hasLessonList, h.1.1, NodeList.isNil]
    rfl

theorem childInsert_isNil : ∀ (ns : NodeList) (child : DirectoryNode),
    (childInsert ns child).isNil = false := by
  intro ns child
  cases ns with
  | nil => rfl
  | cons c cs =>
    rw [childInsert]
    by_cases h : c.name = child.name
    · rw [if_pos h]; rfl
    · rw [if_neg h]; rfl

theorem prunedChildren_childInsert : ∀ (ns : NodeList) (child : DirectoryNode),
    prunedChildrenB ns = true → hasLessonB child = true → allPrunedB child = true →
    prunedChildrenB (childInsert ns child) = true
  | .nil, child, _, hl, hp => by
    simp [childInsert, prunedChildrenB, hl, hp]
  | .cons c cs, child, hns, hl, hp => by
    rw [prunedChildrenB] at hns
    simp only [Bool.and_eq_true] at hns
    rw [childInsert]
    by_cases h : c.name = child.name
    · rw [if_pos h, prunedChildrenB]
      simp [hl, hp, hns.2]
    · rw [if_neg h, prunedChildrenB]
      simp [hns.1, prunedChildren_childInsert cs child hns.2 hl hp]

theorem hasLessonB_of_kept (child : DirectoryNode) (hp : allPrunedB child = true)
    (hk : (child.has_content || !child.children.isNil) = true) :
    hasLessonB child = true := by
  obtain ⟨nm, p, t, ch, ls, co, la, o, hc⟩ := child
  rw [allPrunedB] at hp
  simp only [Bool.and_eq_true, beq_iff_eq, hasLessonB] at hp
  simp only [DirectoryNode.has_content, DirectoryNode.children] at hk
  rw [hasLessonB]
  rcases Bool.or_eq_true_iff.mp hk with h1 | h1
  · rw [← hp.1, h1]
  · rw [hasLessonList_of_pruned ch hp.2, h1]
    simp

theorem allPrunedB_of_inv (st : DirectoryNode) (h : BuildInv st) : allPrunedB st = true := by
  obtain ⟨nm, p, t, ch, ls, co, la, o, hc⟩ := st
  obtain ⟨h1, h2⟩ := h
  simp only [DirectoryNode.has_content, DirectoryNode.lessons, DirectoryNode.children] at h1 h2
  rw [allPrunedB, hasLessonB, hasLessonList_of_pruned ch h2, h1]
  simp [h2]

theorem buildStep_preserves (course_path current_path : FsPath)
    (recurse : FsPath → DirectoryNode) (hrec : ∀ p, allPrunedB (recurse p) = true) :
    ∀ (st : DirectoryNode) (item : FSEntry), BuildInv st →
    BuildInv (buildStep course_path current_path recurse st item) := by
  intro st item h
  simp only [buildStep]
  by_cases hdot : ".".toList.isPrefixOf item.name
  · rw [if_pos hdot]
    exact h
  · rw [if_neg hdot]
    cases item with
    | dir dnm =>
      simp only
      by_cases hkeep : ((recurse (current_path ++ [dnm])).has_content ||
          !(recurse (current_path ++ [dnm])).children.isNil) = true
      · rw [if_pos hkeep]
        refine ⟨?_, ?_⟩
        · simp only [DirectoryNode.has_content, DirectoryNode.lessons, DirectoryNode.children]
          rw [childInsert_isNil]
          simp
        · simp only [DirectoryNode.children]
          exact prunedChildren_childInsert st.children _ h.2
            (hasLessonB_of_kept _ (hrec _) hkeep) (hrec _)
      · rw [if_neg hkeep]
        exact h
    | file fnm =>
      simp only
      cases hcl : _create_lesson_from_file (current_path ++ [fnm]) course_path with
      | some lesson =>
        refine ⟨?_, h.2⟩
        simp only [DirectoryNode.has_content, DirectoryNode.lessons, DirectoryNode.children]
        simp
      | none => exact h

theorem buildAux_allPruned (fs : FS) (course_path : FsPath) :
    ∀ (fuel : Nat) (current_path : FsPath) (depth : Nat),
    allPrunedB (buildAux fs course_path fuel current_path depth) = true := by
  intro fuel
  induction fuel with
  | zero => intro cur depth; rfl
  | succ f ih =>
    intro cur depth
    simp only [buildAux]
    apply allPrunedB_of_inv
    apply foldl_preserve BuildInv _
      (buildStep_preserves course_path cur _ (fun p => ih p (depth + 1)))
    exact ⟨rfl, rfl⟩

/-! ## The stats accumulator -/

theorem lessonsFold_eq : ∀ (ls : List Lesson) (acc : Nat × Nat),
    ls.foldl (fun a lesson => (a.1 + 1, if pyTruthy lesson.completed then a.2 + 1 else a.2)) acc
      = (acc.1 + ls.length, acc.2 + (ls.filter (fun l => pyTruthy l.completed)).length) := by
  intro ls
  induction ls with
  | nil => intro acc; simp
  | cons l rest ih =>
    intro acc
    rw [List.foldl_cons, ih]
    by_cases h : pyTruthy l.completed
    · simp [h, List.filter_cons]
      constructor <;> omega
    · simp [h, List.filter_cons]
      omega

mutual
theorem countLessonsRec_eq : ∀ (n : DirectoryNode) (acc : Nat × Nat),
    countLessonsRec n acc =
      (acc.1 + (treeLessons n).length,
       acc.2 + ((treeLessons n).filter (fun l => pyTruthy l.completed)).length)
  | .mk nm p t ch ls co la o hc, acc => by
    rw [countLessonsRec, lessonsFold_eq, countLessonsList_eq ch _, treeLessons]
    simp [List.filter_append]
    constructor <;> omega
theorem countLessonsList_eq : ∀ (ns : NodeList) (acc : Nat × Nat),
    countLessonsList ns acc =
      (acc.1 + (treeLessonsList ns).length,
       acc.2 + ((treeLessonsList ns).filter (fun l => pyTruthy l.completed)).length)
  | .nil, acc => by
    rw [countLessonsList, treeLessonsList]
    simp
  | .cons c cs, acc => by
    rw [countLessonsList, countLessonsRec_eq c acc, countLessonsList_eq cs _, treeLessonsList]
    simp [List.filter_append]
    constructor <;> omega
end

theorem pyRound1_zero : pyRound1 0 = 0 := by
  norm_num [pyRound1, roundHalfEven]

/-! ## Claim theorems -/

/-- C1: for every well-formed records mapping (record values are JSON
objects), reconciliation transforms every lesson of the tree exactly by the
specified matching policy: primary key first, then the secondary key, the
first present key supplying `completed` / `progressSeconds` / `lastAccessed`
with defaults false / 0 / absent, and a lesson whose keys are both absent kept
unchanged at its just-scanned defaults. -/
theorem c1_reconcile_matching_policy (progress : PyDict) (course_path : FsPath)
    (root : DirectoryNode) (hwf : ∀ kv ∈ progress, kv.2.isDict = true) :
    apply_progress_to_tree progress course_path root =
      .ok (mapLessonsNode (specReconcileLesson progress course_path) root) ∧
    ∀ l : Lesson, lessonMatchedValue progress course_path l = none →
      specReconcileLesson progress course_path l = l := by
  constructor
  · exact applyProgressToNode_ok progress course_path root
      (fun l _ => lessonLookupOk_of_all_dict progress course_path hwf l)
  · intro l h
    unfold specReconcileLesson
    unfold lessonMatchedValue at h
    rw [h]

/-- C1 witness: the policy theorem applied to a concrete course, tree and
records mapping. -/
theorem c1_reconcile_matching_policy_witness :
    (∀ kv ∈ progressW, kv.2.isDict = true) ∧
    (apply_progress_to_tree progressW cpW treeW =
      .ok (mapLessonsNode (specReconcileLesson progressW cpW) treeW) ∧
    ∀ l : Lesson, lessonMatchedValue progressW cpW l = none →
      specReconcileLesson progressW cpW l = l) :=
  ⟨by decide, c1_reconcile_matching_policy progressW cpW treeW (by decide)⟩

/-- C4: every tree returned by the builder satisfies the pruning invariant,
at every node: `has_content` is true exactly when the subtree holds at least
one lesson, and every node retained in a `children` map has at least one
lesson somewhere in its subtree. -/
theorem c4_pruning_invariant (fs : FS) (course_path current_path : FsPath) (depth : Nat) :
    allPrunedB (_build_directory_tree fs course_path current_path depth) = true :=
  buildAux_allPruned fs course_path (11 - depth) current_path depth

/-- C5: the recursion stops at the hard depth cap: any call at `depth > 10`
returns the empty directory node for that branch instead of recursing, and
the scan of an infinitely deep directory chain (every directory holding one
subdirectory) completes, returning the fully pruned root node. -/
theorem c5_depth_cap :
    (∀ (fs : FS) (course_path current_path : FsPath) (depth : Nat), depth > 10 →
      _build_directory_tree fs course_path current_path depth =
        truncatedNode current_path) ∧
    _build_directory_tree chainFS ["c".toList] ["c".toList] 0 =
      initialNode ["c".toList] ["c".toList] 0 := by
  constructor
  · intro fs course_path current_path depth h
    unfold _build_directory_tree
    rw [show 11 - depth = 0 from by omega]
    rfl
  · rfl

/-- C5 witness: a directory at the eleventh level below the root is returned
as the empty truncated node. -/
theorem c5_depth_cap_witness :
    11 > 10 ∧
    _build_directory_tree chainFS ["c".toList] ["c".toList, "d".toList] 11 =
      truncatedNode ["c".toList, "d".toList] :=
  ⟨by decide, c5_depth_cap.1 chainFS ["c".toList] ["c".toList, "d".toList] 11 (by decide)⟩

/-- C7 counterexample: a records mapping holding a non-object value under a
key matched by a lesson makes reconciliation raise (the `.get` calls fail on
a non-dict), so reconciliation does not complete for every records mapping. -/
theorem c7_counterexample :
    apply_progress_to_tree badRecordsW cpW treeW = .error .attributeError := rfl

/-- C7 amended: reconciliation completes without error for every records
mapping whose values are JSON objects, however many missing, extra or
field-incomplete entries it holds; a value that is not an object and is
matched by some lesson raises instead of being treated as absent. -/
theorem c7_reconcile_total_on_objects (progress : PyDict) (course_path : FsPath)
    (root : DirectoryNode) (hwf : ∀ kv ∈ progress, kv.2.isDict = true) :
    ∃ root2, apply_progress_to_tree progress course_path root = .ok root2 :=
  ⟨mapLessonsNode (specReconcileLesson progress course_path) root,
    applyProgressToNode_ok progress course_path root
      (fun l _ => lessonLookupOk_of_all_dict progress course_path hwf l)⟩

/-- C7 witness: reconciliation succeeds on a mapping with an unmatched extra
key and a matched record missing every expected field. -/
theorem c7_reconcile_total_on_objects_witness :
    (∀ kv ∈ messyRecordsW, kv.2.isDict = true) ∧
    ∃ root2, apply_progress_to_tree messyRecordsW cpW treeW = .ok root2 :=
  ⟨by decide, c7_reconcile_total_on_objects messyRecordsW cpW treeW (by decide)⟩

/-- C8 counterexample: viewing the fixture lesson through the URL the
application itself generates for it stores the record under the secondary
composite key, and nothing under the primary key, refuting the claim that a
progress update always stores under the primary key only. -/
theorem c8_counterexample :
    get_lesson_url lessonW cpW = lessonSecondaryKey cpW lessonW ∧
    lessonSecondaryKey cpW lessonW ≠ lessonPrimaryKey cpW lessonW ∧
    view_lesson treeW cpW (get_lesson_url lessonW cpW) [] "T1".toList =
      some [(lessonSecondaryKey cpW lessonW,
             .dict [(keyCompleted, .bool false), (keyProgressSeconds, .num 0),
                    (keyLastAccessed, .str "T1".toList)]),
            (keyLastAccessedPath, .str (lessonSecondaryKey cpW lessonW))] ∧
    (view_lesson treeW cpW (get_lesson_url lessonW cpW) [] "T1".toList).map
      (fun st => dictGet st (lessonPrimaryKey cpW lessonW)) = some none :=
  ⟨rfl, by decide, rfl, rfl⟩

/-- C8 amended: `update_lesson_progress` stores the record under exactly the
key its caller passes (which, through `view_lesson`, is the requested URL
path and for application-generated links the composite key, not necessarily
the primary key); the same single store update sets the top-level
last-accessed entry to that key, and no other key changes. -/
theorem c8_update_write_path (progress : PyDict) (k : List Char) (c : Bool) (s : Int)
    (now : List Char) (hk : k ≠ keyLastAccessedPath) :
    dictGet (update_lesson_progress progress k now c s) k =
      some (.dict [(keyCompleted, .bool c), (keyProgressSeconds, .num s),
                   (keyLastAccessed, .str now)]) ∧
    dictGet (update_lesson_progress progress k now c s) keyLastAccessedPath =
      some (.str k) ∧
    ∀ q, q ≠ k → q ≠ keyLastAccessedPath →
      dictGet (update_lesson_progress progress k now c s) q = dictGet progress q := by
  unfold update_lesson_progress
  refine ⟨?_, dictGet_dictSet_same _ _ _, ?_⟩
  · rw [dictGet_dictSet_other _ _ _ _ hk, dictGet_dictSet_same]
  · intro q hq1 hq2
    rw [dictGet_dictSet_other _ _ _ _ hq2, dictGet_dictSet_other _ _ _ _ hq1]

/-- C8 witness: the write-path theorem applied to a concrete store and key. -/
theorem c8_update_write_path_witness :
    ("b.mp4/B".toList ≠ keyLastAccessedPath) ∧
    (dictGet (update_lesson_progress progressW "b.mp4/B".toList "T1".toList true 5)
        "b.mp4/B".toList =
      some (.dict [(keyCompleted, .bool true), (keyProgressSeconds, .num 5),
                   (keyLastAccessed, .str "T1".toList)]) ∧
    dictGet (update_lesson_progress progressW "b.mp4/B".toList "T1".toList true 5)
        keyLastAccessedPath = some (.str "b.mp4/B".toList) ∧
    ∀ q, q ≠ "b.mp4/B".toList → q ≠ keyLastAccessedPath →
      dictGet (update_lesson_progress progressW "b.mp4/B".toList "T1".toList true 5) q =
        dictGet progressW q) :=
  ⟨by decide, c8_update_write_path progressW "b.mp4/B".toList true 5 "T1".toList (by decide)⟩

/-- C10 counterexample: at the reserved key `last_accessed_path` the update
does not leave the record object behind: the second assignment of the same
update overwrites it with the string key, so the overwrite-with-exactly-the-
record property does not hold for every key. -/
theorem c10_counterexample :
    dictGet (update_lesson_progress [] keyLastAccessedPath "T1".toList true 5)
        keyLastAccessedPath = some (.str keyLastAccessedPath) ∧
    JsonVal.str keyLastAccessedPath ≠
      .dict [(keyCompleted, .bool true), (keyProgressSeconds, .num 5),
             (keyLastAccessed, .str "T1".toList)] :=
  ⟨rfl, fun h => JsonVal.noConfusion h⟩

/-- C10 amended: for every key other than the reserved `last_accessed_path`
entry, `update_lesson_progress` unconditionally replaces whatever record was
stored under that key with exactly the record built from its arguments
(defaults false / 0) and the clock value; in particular merely viewing a
lesson resets its persisted record to completed = false, progress = 0. -/
theorem c10_update_replaces (progress : PyDict) (k : List Char) (c : Bool) (s : Int)
    (now : List Char) (hk : k ≠ keyLastAccessedPath) :
    dictGet (update_lesson_progress progress k now c s) k =
      some (.dict [(keyCompleted, .bool c), (keyProgressSeconds, .num s),
                   (keyLastAccessed, .str now)]) ∧
    ∀ (root : DirectoryNode) (course_path : FsPath) (st2 : PyDict),
      view_lesson root course_path k progress now = some st2 →
      dictGet st2 k =
        some (.dict [(keyCompleted, .bool false), (keyProgressSeconds, .num 0),
                     (keyLastAccessed, .str now)]) := by
  constructor
  · unfold update_lesson_progress
    rw [dictGet_dictSet_other _ _ _ _ hk, dictGet_dictSet_same]
  · intro root course_path st2 hview
    unfold view_lesson at hview
    cases hf : find_lesson_in_tree course_path k root with
    | none => rw [hf] at hview; exact absurd hview (by simp)
    | some l =>
      rw [hf] at hview
      have hst : st2 = update_lesson_progress progress k now := by
        injection hview with h
        exact h.symm
      subst hst
      unfold update_lesson_progress
      rw [dictGet_dictSet_other _ _ _ _ hk, dictGet_dictSet_same]

/-- C10 witness: viewing the fixture lesson over a store already holding a
completed record under the same key resets that record. -/
theorem c10_update_replaces_witness :
    ("b.mp4/B".toList ≠ keyLastAccessedPath) ∧
    (dictGet (update_lesson_progress
        [("b.mp4/B".toList, .dict [(keyCompleted, .bool true), (keyProgressSeconds, .num 500)])]
        "b.mp4/B".toList "T2".toList true 5) "b.mp4/B".toList =
      some (.dict [(keyCompleted, .bool true), (keyProgressSeconds, .num 5),
                   (keyLastAccessed, .str "T2".toList)]) ∧
    ∀ (root : DirectoryNode) (course_path : FsPath) (st2 : PyDict),
      view_lesson root course_path "b.mp4/B".toList
        [("b.mp4/B".toList, .dict [(keyCompleted, .bool true), (keyProgressSeconds, .num 500)])]
        "T2".toList = some st2 →
      dictGet st2 "b.mp4/B".toList =
        some (.dict [(keyCompleted, .bool false), (keyProgressSeconds, .num 0),
                     (keyLastAccessed, .str "T2".toList)])) :=
  ⟨by decide, c10_update_replaces
    [("b.mp4/B".toList, .dict [(keyCompleted, .bool true), (keyProgressSeconds, .num 500)])]
    "b.mp4/B".toList true 5 "T2".toList (by decide)⟩

/-- C3 counterexample: the normalizer is not idempotent on every input: for
the input whose normalized result begins with a digit the second application
strips that digit as an ordering prefix. -/
theorem c3_normalize_counterexample :
    _clean_lesson_name (_clean_lesson_name "-3abc".toList) ≠
      _clean_lesson_name "-3abc".toList := by decide

/-- C3 amended: the normalizer never returns an empty string, and it is
idempotent on every input whose normalized result does not begin with an
ASCII digit (a result that does begin with a digit loses that digit, taken
for an ordering prefix, on a second application). -/
theorem c3_normalize_idempotent :
    (∀ x : List Char, _clean_lesson_name x ≠ []) ∧
    (∀ x : List Char, startsWithDigit (_clean_lesson_name x) = false →
      _clean_lesson_name (_clean_lesson_name x) = _clean_lesson_name x) :=
  ⟨clean_lesson_name_ne_nil, clean_lesson_name_idem_of_not_digit⟩

/-- C3 witness: idempotence and nonemptiness at a concrete name. -/
theorem c3_normalize_idempotent_witness :
    (startsWithDigit (_clean_lesson_name "03-Intro_Lecture".toList) = false ∧
     _clean_lesson_name (_clean_lesson_name "03-Intro_Lecture".toList) =
       _clean_lesson_name "03-Intro_Lecture".toList) ∧
    _clean_lesson_name "03-Intro_Lecture".toList ≠ [] :=
  ⟨⟨by decide, c3_normalize_idempotent.2 "03-Intro_Lecture".toList (by decide)⟩,
   c3_normalize_idempotent.1 "03-Intro_Lecture".toList⟩

/-- C6: a file whose extension is in the text set classifies as a quiz
exactly when the lowercased full filename contains a quiz-indicator
substring, and as text otherwise; in particular Quiz-1.pdf is a quiz and
Notes.pdf is a text. -/
theorem c6_classifier_quiz_text :
    (∀ file_path course_path : FsPath,
      pyLower (pySuffix (pathName file_path)) ∈ TEXT_EXTENSIONS →
      (_create_lesson_from_file file_path course_path).map (fun l => l.lesson_type) =
        some (if QUIZ_INDICATORS.any
                (fun ind => listContains (pyLower (pathName file_path)) ind)
              then "quiz".toList else "text".toList)) ∧
    (_create_lesson_from_file ["c".toList, "Quiz-1.pdf".toList] ["c".toList]).map
      (fun l => l.lesson_type) = some "quiz".toList ∧
    (_create_lesson_from_file ["c".toList, "Notes.pdf".toList] ["c".toList]).map
      (fun l => l.lesson_type) = some "text".toList := by
  refine ⟨?_, by decide, by decide⟩
  intro file_path course_path hext
  have hfacts : ∀ x ∈ TEXT_EXTENSIONS,
      SKIP_EXTENSIONS.contains x = false ∧ VIDEO_EXTENSIONS.contains x = false ∧
      AUDIO_EXTENSIONS.contains x = false ∧ SUBTITLE_EXTENSIONS.contains x = false := by
    decide
  obtain ⟨h1, h2, h3, h4⟩ := hfacts _ hext
  have h5 : TEXT_EXTENSIONS.contains (pyLower (pySuffix (pathName file_path))) = true :=
    List.elem_eq_true_of_mem hext
  simp only [_create_lesson_from_file, h1, h2, h3, h4, h5]
  simp

/-- C6 witness: the classifier rule applied to the concrete quiz file. -/
theorem c6_classifier_quiz_text_witness :
    pyLower (pySuffix (pathName ["c".toList, "Quiz-1.pdf".toList])) ∈ TEXT_EXTENSIONS ∧
    (_create_lesson_from_file ["c".toList, "Quiz-1.pdf".toList] ["c".toList]).map
        (fun l => l.lesson_type) =
      some (if QUIZ_INDICATORS.any
              (fun ind => listContains (pyLower (pathName ["c".toList, "Quiz-1.pdf".toList])) ind)
            then "quiz".toList else "text".toList) :=
  ⟨by decide, c6_classifier_quiz_text.1 ["c".toList, "Quiz-1.pdf".toList] ["c".toList] (by decide)⟩

/-- C9: the stats traversal returns exactly the number of lessons in the
subtree as the total, the number of lessons with a truthy completed flag as
completed (so completed is at most total), and the percentage rounded to one
decimal, zero when the tree is empty. -/
theorem c9_stats_postcondition (node : DirectoryNode) :
    (_calculate_completion_stats node).total_lessons = specTotalLessons node ∧
    (_calculate_completion_stats node).completed_lessons = specCompletedLessons node ∧
    specCompletedLessons node ≤ specTotalLessons node ∧
    (_calculate_completion_stats node).completion_percentage =
      (if 0 < specTotalLessons node then
        pyRound1 ((specCompletedLessons node : ℚ) / (specTotalLessons node : ℚ) * 100)
      else 0) := by
  simp only [_calculate_completion_stats, countLessonsRec_eq node (0, 0),
    specTotalLessons, specCompletedLessons, Nat.zero_add]
  refine ⟨by trivial, by trivial, List.length_filter_le _ _, ?_⟩
  by_cases h : 0 < (treeLessons node).length
  · rw [if_pos h, if_pos (by simpa using h)]
  · rw [if_neg h, if_neg (by simpa using h), pyRound1_zero]

/-- C2: writing a progress update for a lesson of the tree under its primary
key and then reconciling the reloaded store against the same tree restores
the completed flag and progress seconds of that lesson to the written values, for
any store whose prior values are record objects (apart from the reserved
last-accessed entry) and any tree none of whose lesson keys collides with the
reserved `last_accessed_path` key. -/
theorem c2_update_reconcile_roundtrip (course_path : FsPath) (root : DirectoryNode)
    (L : Lesson) (c : Bool) (s : Int) (now : List Char) (progress : PyDict)
    (hL : L ∈ treeLessons root)
    (hwf : ∀ kv ∈ progress, kv.2.isDict = true ∨ kv.1 = keyLastAccessedPath)
    (hkeys : ∀ l ∈ treeLessons root,
      lessonPrimaryKey course_path l ≠ keyLastAccessedPath ∧
      lessonSecondaryKey course_path l ≠ keyLastAccessedPath) :
    ∃ root2,
      apply_progress_to_tree
        (update_lesson_progress progress (lessonPrimaryKey course_path L) now c s)
        course_path root = .ok root2 ∧
      ∀ l ∈ treeLessons root2,
        lessonPrimaryKey course_path l = lessonPrimaryKey course_path L →
        l.completed = .bool c ∧ l.progress_seconds = .num s := by
  have hkne : lessonPrimaryKey course_path L ≠ keyLastAccessedPath := (hkeys L hL).1
  set k := lessonPrimaryKey course_path L with hkdef
  set p2 := update_lesson_progress progress k now c s with hp2def
  have hgetk : dictGet p2 k =
      some (.dict [(keyCompleted, .bool c), (keyProgressSeconds, .num s),
                   (keyLastAccessed, .str now)]) := by
    rw [hp2def]
    unfold update_lesson_progress
    rw [dictGet_dictSet_other _ _ _ _ hkne, dictGet_dictSet_same]
  have hother : ∀ q, q ≠ k → q ≠ keyLastAccessedPath →
      dictGet p2 q = dictGet progress q := by
    intro q h1 h2
    rw [hp2def]
    unfold update_lesson_progress
    rw [dictGet_dictSet_other _ _ _ _ h2, dictGet_dictSet_other _ _ _ _ h1]
  have hdictv : ∀ q v, q ≠ keyLastAccessedPath → dictGet p2 q = some v →
      v.isDict = true := by
    intro q v hq hv
    by_cases hqk : q = k
    · subst hqk
      rw [hgetk] at hv
      injection hv with hv
      rw [← hv]
      rfl
    · rw [hother q hqk hq] at hv
      rcases hwf (q, v) (dictGet_mem hv) with h | h
      · exact h
      · exact absurd h hq
  have hlok : ∀ l ∈ treeLessons root, lessonLookupOk p2 course_path l = true := by
    intro l hl
    obtain ⟨hne1, hne2⟩ := hkeys l hl
    unfold lessonLookupOk lessonMatchedValue
    cases hp : dictGet p2 (lessonPrimaryKey course_path l) with
    | some v =>
      simp only [firstMatch, hp]
      exact hdictv _ v hne1 hp
    | none =>
      simp only [firstMatch, hp]
      cases hs2 : dictGet p2 (lessonSecondaryKey course_path l) with
      | some v =>
        simp only [firstMatch, hs2]
        exact hdictv _ v hne2 hs2
      | none =>
        simp only [firstMatch, hs2]
  have happly := applyProgressToNode_ok p2 course_path root hlok
  refine ⟨_, happly, ?_⟩
  intro l hl hkey
  rw [treeLessons_mapLessonsNode] at hl
  obtain ⟨l0, hl0, rfl⟩ := List.mem_map.mp hl
  have hpk : lessonPrimaryKey course_path (specReconcileLesson p2 course_path l0) =
      lessonPrimaryKey course_path l0 := by
    unfold lessonPrimaryKey lessonRelPath
    rw [(specReconcileLesson_path p2 course_path l0).1]
  rw [hpk] at hkey
  unfold specReconcileLesson
  rw [hkey]
  simp only [firstMatch, hgetk]
  exact ⟨rfl, rfl⟩

/-- C2 witness: the round trip at a concrete course, tree, lesson and empty
prior store. -/
theorem c2_update_reconcile_roundtrip_witness :
    (lessonW ∈ treeLessons treeW ∧
     (∀ kv ∈ ([] : PyDict), kv.2.isDict = true ∨ kv.1 = keyLastAccessedPath) ∧
     (∀ l ∈ treeLessons treeW,
       lessonPrimaryKey cpW l ≠ keyLastAccessedPath ∧
       lessonSecondaryKey cpW l ≠ keyLastAccessedPath)) ∧
    ∃ root2,
      apply_progress_to_tree
        (update_lesson_progress [] (lessonPrimaryKey cpW lessonW) "T3".toList true 120)
        cpW treeW = .ok root2 ∧
      ∀ l ∈ treeLessons root2,
        lessonPrimaryKey cpW l = lessonPrimaryKey cpW lessonW →
        l.completed = .bool true ∧ l.progress_seconds = .num 120 := by
  have h1 : lessonW ∈ treeLessons treeW := List.Mem.head _
  have h2 : ∀ kv ∈ ([] : PyDict), kv.2.isDict = true ∨ kv.1 = keyLastAccessedPath := by
    simp
  have h3 : ∀ l ∈ treeLessons treeW,
      lessonPrimaryKey cpW l ≠ keyLastAccessedPath ∧
      lessonSecondaryKey cpW l ≠ keyLastAccessedPath := by
    intro l hl
    simp only [treeW, treeLessons, treeLessonsList] at hl
    have hle : l = lessonW := by simpa using hl
    subst hle
    exact ⟨by decide, by decide⟩
  exact ⟨⟨h1, h2, h3⟩,
    c2_update_reconcile_roundtrip cpW treeW lessonW true 120 "T3".toList [] h1 h2 h3⟩
